import Mathlib

/-!
Verification of the biclustpy orchestrator (`src/biclustpy/main.py`).

The orchestrator `compute_bi_clusters` and the strategy selector
`Algorithm.run` are embedded from `main.py`.  The `helpers` module
(graph builder, bi-clique classifier, connected-component decomposer,
row/column id conversion) and the `ilp` solver backend are not part of
the source tree; they are modelled from the specification (§3, §4.1–4.4),
the solver backend as an opaque function parameter.

Real-valued weights and objective values are embedded as `Int`;
Python exceptions are embedded as `Except String`.
-/

namespace Biclustpy

/-- A weight matrix: shape `num_rows × num_cols` plus the entries.
Embeds the numpy array passed to `compute_bi_clusters`. -/
structure Weights where
  num_rows : Nat
  num_cols : Nat
  entry : Nat → Nat → Int

/-- An undirected graph over integer node ids, embedded as an explicit
node list and an edge list (networkx stores a node set and an edge set;
an undirected edge is recorded once, in either orientation). -/
structure Graph where
  nodes : List Nat
  edges : List (Nat × Nat)
deriving DecidableEq, Repr

/-- Undirected adjacency: the edge is present in either orientation. -/
def Graph.adjacent (G : Graph) (u v : Nat) : Bool :=
  G.edges.contains (u, v) || G.edges.contains (v, u)

/-- Modelled from the spec: `helpers.is_row` — node ids `< num_rows`
denote rows (§3, node identifier). -/
def is_row (node num_rows : Nat) : Bool :=
  node < num_rows

/-- Modelled from the spec: `helpers.node_to_col` — a column node id
`>= num_rows` denotes column `id - num_rows` (§3, node identifier). -/
def node_to_col (node num_rows : Nat) : Nat :=
  node - num_rows

/-- Modelled from the spec: `helpers.build_graph_from_weights` — the graph
contains every node of `node_range`, with an edge between row-node `i` and
column-node `num_rows + j` iff `weight[i][j] >= threshold` (§3, §4.1). -/
def build_graph_from_weights (weights : Weights) (threshold : Int)
    (node_range : List Nat) : Graph :=
  { nodes := node_range
    edges := (List.range weights.num_rows).flatMap (fun i =>
      (List.range weights.num_cols).filterMap (fun j =>
        if threshold ≤ weights.entry i j then
          some (i, weights.num_rows + j)
        else
          none)) }

/-- One breadth-first expansion step: adjoin every allowed node that is
adjacent to the current set and not yet in it. -/
def reachExtend (G : Graph) (allowed cur : List Nat) : List Nat :=
  cur ++ (allowed.filter (fun v =>
    decide (v ∉ cur) && cur.any (fun u => G.adjacent u v))).dedup

/-- Fuel-bounded iteration of `reachExtend`. -/
def reachAux (G : Graph) (allowed : List Nat) : Nat → List Nat → List Nat
  | 0, cur => cur
  | fuel + 1, cur => reachAux G allowed fuel (reachExtend G allowed cur)

/-- The nodes of `allowed` reachable from `n` (staying inside `allowed`);
`allowed.length` expansion steps suffice. -/
def reachWithin (G : Graph) (allowed : List Nat) (n : Nat) : List Nat :=
  reachAux G allowed allowed.length [n]

/-- The node sets of the connected components of `G` restricted to the
node list `l`, in order of first occurrence: repeatedly peel off the
reachable set of the first remaining node.  `fuel` bounds the recursion
(`l.length` suffices). -/
def componentsAux (G : Graph) : Nat → List Nat → List (List Nat)
  | 0, _ => []
  | _ + 1, [] => []
  | fuel + 1, n :: rest =>
    let comp := reachWithin G (n :: rest) n
    comp :: componentsAux G fuel ((n :: rest).filter (fun m => decide (m ∉ comp)))

/-- The subgraph of `G` induced on the node list `ns`. -/
def Graph.inducedSubgraph (G : Graph) (ns : List Nat) : Graph :=
  { nodes := ns
    edges := G.edges.filter (fun e => ns.contains e.1 && ns.contains e.2) }

/-- Modelled from the spec: `helpers.connected_components` — a sequence of
vertex-disjoint connected subgraphs whose union reconstructs the input
graph, ordered deterministically by first node occurrence (§4.3). -/
def connected_components (G : Graph) : List Graph :=
  (componentsAux G G.nodes.length G.nodes).map G.inducedSubgraph

/-- Modelled from the spec: `helpers.is_bi_clique` — true iff every
row-node of the component is adjacent to every column-node and every edge
joins a row-node to a column-node (§4.2). -/
def is_bi_clique (component : Graph) (num_rows : Nat) : Bool :=
  (component.nodes.filter (fun n => is_row n num_rows)).all (fun r =>
    (component.nodes.filter (fun n => !is_row n num_rows)).all (fun c =>
      component.adjacent r c)) &&
  component.edges.all (fun e =>
    (is_row e.1 num_rows && !is_row e.2 num_rows) ||
    (!is_row e.1 num_rows && is_row e.2 num_rows))

/-- The configuration object of `main.py`: `Algorithm` with attributes
`algorithm_name`, `ilp_time_limit`, `ilp_tune`. -/
structure Algorithm where
  algorithm_name : String
  ilp_time_limit : Int
  ilp_tune : Bool
deriving DecidableEq, Repr

/-- `Algorithm.__init__`: defaults `"ILP"`, `60`, `False`. -/
def Algorithm.init : Algorithm :=
  { algorithm_name := "ILP", ilp_time_limit := 60, ilp_tune := false }

/-- The type of the external solver backend `ilp.run(weights, threshold,
subgraph, time_limit, tune)`: it either raises or returns a bi-transitive
subgraph, an objective value, and an optimality flag. -/
abbrev IlpRun :=
  Weights → Int → Graph → Int → Bool → Except String (Graph × Int × Bool)

/-- `Algorithm.run` from `main.py`: dispatch on `algorithm_name`; `"ILP"`
calls the backend, `"FP"` and `"EDGE-DEL"` raise not-implemented, anything
else raises invalid-name. -/
def Algorithm.run (self : Algorithm) (ilp_run : IlpRun) (weights : Weights)
    (threshold : Int) (subgraph : Graph) : Except String (Graph × Int × Bool) :=
  if self.algorithm_name = "ILP" then
    ilp_run weights threshold subgraph self.ilp_time_limit self.ilp_tune
  else if self.algorithm_name = "FP" then
    .error "The algorithm FP has not been implemented yet."
  else if self.algorithm_name = "EDGE-DEL" then
    .error "The algorithm EDGE-DEL has not been implemented yet."
  else
    .error ("Invalid algorithm name \"" ++ self.algorithm_name ++
      "\". Must be either \"ILP\", \"FP\", or \"EDGE-DEL\".")

/-- A bi-cluster: a list of row ids and a list of column ids. -/
abbrev BiCluster := List Nat × List Nat

/-- The bi-cluster built from a component's node list in `main.py`:
iterate over the nodes, appending row ids to the first list and converted
column ids to the second. -/
def biClusterOfNodes (num_rows : Nat) : List Nat → BiCluster
  | [] => ([], [])
  | n :: rest =>
    let bc := biClusterOfNodes num_rows rest
    if is_row n num_rows then
      (n :: bc.1, bc.2)
    else
      (bc.1, node_to_col n num_rows :: bc.2)

/-- The message of the exception raised in `compute_bi_clusters` when a
component of a solver-returned subgraph is not a bi-clique; it embeds the
offending component's node and edge sets. -/
def biCliqueErrorMsg (component : Graph) : String :=
  "Subgraph should be bi-clique but isn't.:" ++
    "\nNodes: " ++ toString component.nodes ++
    "\nEdges: " ++ toString component.edges

/-- The inner validation loop of `compute_bi_clusters`: decompose a
solver-returned subgraph's components in order; raise on the first
component that is not a bi-clique, otherwise turn each into a
bi-cluster. -/
def validateComponents (num_rows : Nat) : List Graph → Except String (List BiCluster)
  | [] => .ok []
  | c :: rest =>
    if is_bi_clique c num_rows then
      match validateComponents num_rows rest with
      | .error e => .error e
      | .ok bcs => .ok (biClusterOfNodes num_rows c.nodes :: bcs)
    else
      .error (biCliqueErrorMsg c)

/-- The dispatch loop of `compute_bi_clusters`: for each non-trivial
subgraph in order, call `Algorithm.run`, accumulate the objective value
and the optimality AND, validate and append the resulting bi-clusters. -/
def solveSubgraphs (alg : Algorithm) (ilp_run : IlpRun) (weights : Weights)
    (threshold : Int) (num_rows : Nat) :
    List Graph → List BiCluster → Int → Bool →
      Except String (List BiCluster × Int × Bool)
  | [], bi_clusters, obj_val, is_optimal => .ok (bi_clusters, obj_val, is_optimal)
  | subgraph :: rest, bi_clusters, obj_val, is_optimal =>
    match alg.run ilp_run weights threshold subgraph with
    | .error e => .error e
    | .ok (bi_transitive_subgraph, local_obj_val, local_is_optimal) =>
      match validateComponents num_rows (connected_components bi_transitive_subgraph) with
      | .error e => .error e
      | .ok new_bcs =>
        solveSubgraphs alg ilp_run weights threshold num_rows rest
          (bi_clusters ++ new_bcs) (obj_val + local_obj_val)
          (is_optimal && local_is_optimal)

/-- The full graph built by `compute_bi_clusters`:
`helpers.build_graph_from_weights(weights, threshold, range(num_rows + num_cols))`. -/
def instanceGraph (weights : Weights) (threshold : Int) : Graph :=
  build_graph_from_weights weights threshold
    (List.range (weights.num_rows + weights.num_cols))

/-- The connected components of the full instance graph. -/
def instanceComponents (weights : Weights) (threshold : Int) : List Graph :=
  connected_components (instanceGraph weights threshold)

/-- The bi-clusters emitted directly from the components that are already
bi-cliques (the classification loop of `compute_bi_clusters`). -/
def trivialBiClusters (weights : Weights) (threshold : Int) : List BiCluster :=
  ((instanceComponents weights threshold).filter
      (fun c => is_bi_clique c weights.num_rows)).map
    (fun c => biClusterOfNodes weights.num_rows c.nodes)

/-- The components that are not bi-cliques, i.e. the subgraphs handed to
the solver, in decomposition order. -/
def nontrivialComponents (weights : Weights) (threshold : Int) : List Graph :=
  (instanceComponents weights threshold).filter
    (fun c => !is_bi_clique c weights.num_rows)

/-- `compute_bi_clusters(weights, threshold, algorithm)` from `main.py`:
build the graph, decompose it, emit bi-cliques directly, then run the
dispatch loop on the remaining subgraphs with objective value `0` and
optimality flag `True` as initial accumulators. -/
def compute_bi_clusters (weights : Weights) (threshold : Int)
    (algorithm : Algorithm) (ilp_run : IlpRun) :
    Except String (List BiCluster × Int × Bool) :=
  solveSubgraphs algorithm ilp_run weights threshold weights.num_rows
    (nontrivialComponents weights threshold)
    (trivialBiClusters weights threshold) 0 true

/-- The bi-clusters contributed by one dispatched subgraph: the components
of the solver-returned subgraph, converted; `[]` if the call raised. -/
def solvedBcs (alg : Algorithm) (ilp_run : IlpRun) (weights : Weights)
    (threshold : Int) (num_rows : Nat) (sg : Graph) : List BiCluster :=
  match alg.run ilp_run weights threshold sg with
  | .ok (g, _, _) => (connected_components g).map (fun c => biClusterOfNodes num_rows c.nodes)
  | .error _ => []

/-- The objective value reported for one dispatched subgraph; `0` if the
call raised. -/
def solvedObj (alg : Algorithm) (ilp_run : IlpRun) (weights : Weights)
    (threshold : Int) (sg : Graph) : Int :=
  match alg.run ilp_run weights threshold sg with
  | .ok (_, o, _) => o
  | .error _ => 0

/-- The optimality flag reported for one dispatched subgraph; `false` if
the call raised. -/
def solvedOpt (alg : Algorithm) (ilp_run : IlpRun) (weights : Weights)
    (threshold : Int) (sg : Graph) : Bool :=
  match alg.run ilp_run weights threshold sg with
  | .ok (_, _, b) => b
  | .error _ => false

/-- State-passing variant of the dispatch loop: the weight matrix and the
configuration object are threaded through every iteration.  The source
contains no assignment to `weights` or to the attributes of `algorithm`,
so each iteration passes them on unchanged. -/
def solveSubgraphsSt (ilp_run : IlpRun) (threshold : Int) (num_rows : Nat) :
    Weights → Algorithm → List Graph → List BiCluster → Int → Bool →
      (Weights × Algorithm) × Except String (List BiCluster × Int × Bool)
  | weights, alg, [], bi_clusters, obj_val, is_optimal =>
    ((weights, alg), .ok (bi_clusters, obj_val, is_optimal))
  | weights, alg, subgraph :: rest, bi_clusters, obj_val, is_optimal =>
    match alg.run ilp_run weights threshold subgraph with
    | .error e => ((weights, alg), .error e)
    | .ok (bi_transitive_subgraph, local_obj_val, local_is_optimal) =>
      match validateComponents num_rows (connected_components bi_transitive_subgraph) with
      | .error e => ((weights, alg), .error e)
      | .ok new_bcs =>
        solveSubgraphsSt ilp_run threshold num_rows weights alg rest
          (bi_clusters ++ new_bcs) (obj_val + local_obj_val)
          (is_optimal && local_is_optimal)

/-- State-passing variant of `compute_bi_clusters`, returning the weight
matrix and configuration object alongside the result. -/
def compute_bi_clusters_st (weights : Weights) (threshold : Int)
    (algorithm : Algorithm) (ilp_run : IlpRun) :
    (Weights × Algorithm) × Except String (List BiCluster × Int × Bool) :=
  solveSubgraphsSt ilp_run threshold weights.num_rows weights algorithm
    (nontrivialComponents weights threshold)
    (trivialBiClusters weights threshold) 0 true

/-! ### Concrete test fixtures

Small instances and stub solver adapters used to instantiate the theorems
below, in the spirit of the scenarios of §8 of the specification. -/

/-- A 2×2 instance whose graph is one complete bipartite component. -/
def exWeightsTrivial : Weights := ⟨2, 2, fun _ _ => 1⟩

/-- A 2×2 instance whose graph is one connected component that is not a
bi-clique (row 1 misses the edge to column 1). -/
def exWeightsP : Weights := ⟨2, 2, fun i j => if i = 1 ∧ j = 1 then -1 else 1⟩

/-- A stub solver that completes the missing edge of `exWeightsP`,
reporting objective value 3 and a non-optimal solution. -/
def exSolverComplete : IlpRun :=
  fun _ _ sg _ _ => .ok (⟨sg.nodes, [(0, 2), (0, 3), (1, 2), (1, 3)]⟩, 3, false)

/-- A contract-violating stub solver that returns its input unchanged. -/
def exSolverIdentity : IlpRun := fun _ _ sg _ _ => .ok (sg, 0, true)

/-- A contract-violating stub solver that drops every node. -/
def exSolverEmpty : IlpRun := fun _ _ _ _ _ => .ok (⟨[], []⟩, 0, true)

/-- A stub solver that raises on every call. -/
def exSolverRaise : IlpRun := fun _ _ _ _ _ => .error "Gurobi failure"

/-! ### Reachability and component lemmas -/

theorem mem_reachExtend_of_mem {G : Graph} {allowed cur : List Nat} {x : Nat}
    (hx : x ∈ cur) : x ∈ reachExtend G allowed cur := by
  simp [reachExtend, hx]

theorem mem_reachAux_of_mem {G : Graph} {allowed : List Nat} :
    ∀ (fuel : Nat) (cur : List Nat) (x : Nat), x ∈ cur →
      x ∈ reachAux G allowed fuel cur
  | 0, _, _, hx => hx
  | fuel + 1, cur, x, hx =>
    mem_reachAux_of_mem fuel (reachExtend G allowed cur) x
      (mem_reachExtend_of_mem hx)

theorem mem_of_mem_reachExtend {G : Graph} {allowed cur : List Nat} {x : Nat}
    (hx : x ∈ reachExtend G allowed cur) : x ∈ cur ∨ x ∈ allowed := by
  rcases List.mem_append.mp hx with h | h
  · exact Or.inl h
  · exact Or.inr (List.mem_of_mem_filter (List.mem_dedup.mp h))

theorem mem_of_mem_reachAux {G : Graph} {allowed : List Nat} :
    ∀ (fuel : Nat) (cur : List Nat) (x : Nat), x ∈ reachAux G allowed fuel cur →
      x ∈ cur ∨ x ∈ allowed
  | 0, _, _, hx => Or.inl hx
  | fuel + 1, cur, x, hx => by
    rcases mem_of_mem_reachAux fuel (reachExtend G allowed cur) x hx with h | h
    · exact mem_of_mem_reachExtend h
    · exact Or.inr h

theorem nodup_reachExtend {G : Graph} {allowed cur : List Nat}
    (h : cur.Nodup) : (reachExtend G allowed cur).Nodup := by
  refine List.Nodup.append h (List.nodup_dedup _) ?_
  intro x hx hx'
  have := List.of_mem_filter (List.mem_dedup.mp hx')
  simp at this
  exact this.1 hx

theorem nodup_reachAux {G : Graph} {allowed : List Nat} :
    ∀ (fuel : Nat) (cur : List Nat), cur.Nodup → (reachAux G allowed fuel cur).Nodup
  | 0, _, h => h
  | fuel + 1, cur, h =>
    nodup_reachAux fuel (reachExtend G allowed cur) (nodup_reachExtend h)

theorem nodup_reachWithin (G : Graph) (allowed : List Nat) (n : Nat) :
    (reachWithin G allowed n).Nodup :=
  nodup_reachAux _ _ (List.nodup_singleton n)

theorem self_mem_reachWithin (G : Graph) (allowed : List Nat) (n : Nat) :
    n ∈ reachWithin G allowed n :=
  mem_reachAux_of_mem _ _ n (List.mem_singleton_self n)

theorem mem_allowed_of_mem_reachWithin {G : Graph} {allowed : List Nat} {n x : Nat}
    (hn : n ∈ allowed) (hx : x ∈ reachWithin G allowed n) : x ∈ allowed := by
  rcases mem_of_mem_reachAux _ _ x hx with h | h
  · rwa [List.mem_singleton.mp h]
  · exact h

theorem componentsAux_nodup_sub {G : Graph} :
    ∀ (fuel : Nat) (l : List Nat) (c : List Nat), c ∈ componentsAux G fuel l →
      c.Nodup ∧ ∀ x ∈ c, x ∈ l
  | 0, _, _, hc => absurd hc (List.not_mem_nil _)
  | _ + 1, [], _, hc => absurd hc (List.not_mem_nil _)
  | fuel + 1, n :: rest, c, hc => by
    rcases List.mem_cons.mp hc with h | h
    · subst h
      exact ⟨nodup_reachWithin _ _ _,
        fun x hx => mem_allowed_of_mem_reachWithin (List.mem_cons_self n rest) hx⟩
    · obtain ⟨hnd, hsub⟩ := componentsAux_nodup_sub fuel _ c h
      exact ⟨hnd, fun x hx => List.mem_of_mem_filter (hsub x hx)⟩

theorem componentsAux_flat_count {G : Graph} :
    ∀ (fuel : Nat) (l : List Nat), l.Nodup → l.length ≤ fuel → ∀ (v : Nat),
      ((componentsAux G fuel l).flatMap id).count v = l.count v
  | 0, l, _, hfuel, v => by
    have : l = [] := List.eq_nil_of_length_eq_zero (Nat.le_zero.mp hfuel)
    subst this; rfl
  | _ + 1, [], _, _, _ => rfl
  | fuel + 1, n :: rest, hnd, hfuel, v => by
    have hn : n ∈ reachWithin G (n :: rest) n := self_mem_reachWithin G _ n
    have hsub : ∀ x ∈ reachWithin G (n :: rest) n, x ∈ n :: rest :=
      fun x hx => mem_allowed_of_mem_reachWithin (List.mem_cons_self n rest) hx
    have hcompnd : (reachWithin G (n :: rest) n).Nodup := nodup_reachWithin G _ n
    have hunfold : componentsAux G (fuel + 1) (n :: rest) =
        reachWithin G (n :: rest) n ::
          componentsAux G fuel ((n :: rest).filter
            (fun m => decide (m ∉ reachWithin G (n :: rest) n))) := rfl
    have hfilt_eq : (n :: rest).filter
        (fun m => decide (m ∉ reachWithin G (n :: rest) n)) =
        rest.filter (fun m => decide (m ∉ reachWithin G (n :: rest) n)) := by
      rw [List.filter_cons]
      simp [hn]
    have hfilt_nodup : ((n :: rest).filter
        (fun m => decide (m ∉ reachWithin G (n :: rest) n))).Nodup :=
      hnd.filter _
    have hfilt_len : ((n :: rest).filter
        (fun m => decide (m ∉ reachWithin G (n :: rest) n))).length ≤ fuel := by
      rw [hfilt_eq]
      exact Nat.le_trans (rest.length_filter_le _) (Nat.le_of_succ_le_succ hfuel)
    have ih := componentsAux_flat_count (G := G) fuel _ hfilt_nodup hfilt_len v
    rw [hunfold, List.flatMap_cons, List.count_append, ih]
    simp only [id_eq]
    by_cases hv : v ∈ reachWithin G (n :: rest) n
    · have h1 : (reachWithin G (n :: rest) n).count v = 1 :=
        List.count_eq_one_of_mem hcompnd hv
      have h0 : ((n :: rest).filter
          (fun m => decide (m ∉ reachWithin G (n :: rest) n))).count v = 0 := by
        rw [List.count_eq_zero]
        intro hmem
        have := List.of_mem_filter hmem
        simp at this
        exact this hv
      have hl : (n :: rest).count v = 1 :=
        List.count_eq_one_of_mem hnd (hsub v hv)
      rw [h1, h0, hl]
    · have h0 : (reachWithin G (n :: rest) n).count v = 0 :=
        List.count_eq_zero.mpr hv
      have heq : ((n :: rest).filter
          (fun m => decide (m ∉ reachWithin G (n :: rest) n))).count v =
          (n :: rest).count v :=
        List.count_filter (by simpa using hv)
      rw [h0, heq, Nat.zero_add]

theorem count_nodes_connected_components (G : Graph) (hG : G.nodes.Nodup) (v : Nat) :
    ((connected_components G).flatMap Graph.nodes).count v = G.nodes.count v := by
  have hmap : (connected_components G).flatMap Graph.nodes =
      (componentsAux G G.nodes.length G.nodes).flatMap id := by
    unfold connected_components
    induction componentsAux G G.nodes.length G.nodes with
    | nil => rfl
    | cons c cs ih => simp [Graph.inducedSubgraph, ih]
  rw [hmap]
  exact componentsAux_flat_count _ _ hG (Nat.le_refl _) v

theorem nodup_sub_of_mem_connected_components {G : Graph} {c : Graph}
    (hc : c ∈ connected_components G) :
    c.nodes.Nodup ∧ ∀ x ∈ c.nodes, x ∈ G.nodes := by
  obtain ⟨ns, hns, heq⟩ := List.mem_map.mp hc
  obtain ⟨hnd, hsub⟩ := componentsAux_nodup_sub _ _ ns hns
  subst heq
  exact ⟨hnd, hsub⟩

/-! ### Bi-cluster construction lemmas -/

theorem biClusterOfNodes_fst (num_rows : Nat) (ns : List Nat) :
    (biClusterOfNodes num_rows ns).1 = ns.filter (fun n => is_row n num_rows) := by
  induction ns with
  | nil => rfl
  | cons n rest ih =>
    rw [List.filter_cons]
    by_cases h : is_row n num_rows = true
    · simp [biClusterOfNodes, h, ih]
    · simp [biClusterOfNodes, h, ih]

theorem biClusterOfNodes_snd (num_rows : Nat) (ns : List Nat) :
    (biClusterOfNodes num_rows ns).2 =
      (ns.filter (fun n => !is_row n num_rows)).map (fun n => node_to_col n num_rows) := by
  induction ns with
  | nil => rfl
  | cons n rest ih =>
    rw [List.filter_cons]
    by_cases h : is_row n num_rows = true
    · simp [biClusterOfNodes, h, ih]
    · simp [biClusterOfNodes, h, ih]

theorem count_biClusterOfNodes_fst {num_rows i : Nat} (hi : i < num_rows)
    (ns : List Nat) : (biClusterOfNodes num_rows ns).1.count i = ns.count i := by
  rw [biClusterOfNodes_fst]
  exact List.count_filter (by simp [is_row, hi])

theorem count_biClusterOfNodes_fst_high {num_rows v : Nat} (hv : num_rows ≤ v)
    (ns : List Nat) : (biClusterOfNodes num_rows ns).1.count v = 0 := by
  rw [biClusterOfNodes_fst, List.count_eq_zero]
  intro hmem
  have := List.of_mem_filter hmem
  simp [is_row] at this
  omega

theorem count_biClusterOfNodes_snd (num_rows j : Nat) (ns : List Nat) :
    (biClusterOfNodes num_rows ns).2.count j = ns.count (num_rows + j) := by
  induction ns with
  | nil => rfl
  | cons n rest ih =>
    by_cases h : is_row n num_rows = true
    · have hne : ¬ (n = num_rows + j) := by simp [is_row] at h; omega
      simp [biClusterOfNodes, h, List.count_cons, hne, ih]
    · have hge : num_rows ≤ n := by simp [is_row] at h; omega
      by_cases hj : n - num_rows = j
      · have hn : n = num_rows + j := by omega
        have hrow : is_row (num_rows + j) num_rows = false := by simp [is_row]
        simp [biClusterOfNodes, h, List.count_cons, node_to_col, hj, hn, hrow, ih]
      · have hne : ¬ (n = num_rows + j) := by omega
        simp [biClusterOfNodes, h, List.count_cons, node_to_col, hj, hne, ih]

theorem mem_biClusterOfNodes_fst {num_rows r : Nat} {ns : List Nat}
    (h : r ∈ (biClusterOfNodes num_rows ns).1) : r < num_rows ∧ r ∈ ns := by
  rw [biClusterOfNodes_fst] at h
  have h1 := List.of_mem_filter h
  have h2 := List.mem_of_mem_filter h
  simp [is_row] at h1
  exact ⟨h1, h2⟩

theorem mem_biClusterOfNodes_snd {num_rows c : Nat} {ns : List Nat}
    (h : c ∈ (biClusterOfNodes num_rows ns).2) :
    ∃ n ∈ ns, num_rows ≤ n ∧ c = n - num_rows := by
  rw [biClusterOfNodes_snd] at h
  obtain ⟨n, hn, hc⟩ := List.mem_map.mp h
  have h1 := List.of_mem_filter hn
  have h2 := List.mem_of_mem_filter hn
  simp [is_row] at h1
  exact ⟨n, h2, h1, hc.symm ▸ rfl⟩

/-- `List.count` distributes over `flatMap` as a sum of per-element counts. -/
theorem count_flatMap {α β : Type} [DecidableEq β] (f : α → List β)
    (l : List α) (v : β) :
    ((l.flatMap f).count v) = (l.map (fun x => (f x).count v)).sum := by
  induction l with
  | nil => rfl
  | cons a l ih => rw [List.flatMap_cons, List.count_append, ih, List.map_cons,
      List.sum_cons]

/-- Two duplicate-free lists with the same members have the same counts. -/
theorem count_eq_of_nodup_of_mem_iff {a b : List Nat} (ha : a.Nodup)
    (hb : b.Nodup) (h : ∀ v, v ∈ a ↔ v ∈ b) (v : Nat) :
    a.count v = b.count v := by
  by_cases hv : v ∈ a
  · rw [List.count_eq_one_of_mem ha hv, List.count_eq_one_of_mem hb ((h v).mp hv)]
  · rw [List.count_eq_zero.mpr hv, List.count_eq_zero.mpr (fun hc => hv ((h v).mpr hc))]

/-! ### Validation-loop lemmas -/

theorem validateComponents_ok {num_rows : Nat} :
    ∀ {cs : List Graph} {bcs : List BiCluster},
      validateComponents num_rows cs = .ok bcs →
      bcs = cs.map (fun c => biClusterOfNodes num_rows c.nodes) ∧
        ∀ c ∈ cs, is_bi_clique c num_rows = true
  | [], bcs, h => by
    simp [validateComponents] at h
    simp [h.symm]
  | c :: rest, bcs, h => by
    by_cases hc : is_bi_clique c num_rows = true
    · simp only [validateComponents, if_pos hc] at h
      cases hrec : validateComponents num_rows rest with
      | error e => rw [hrec] at h; exact absurd h (by simp)
      | ok bcs' =>
        rw [hrec] at h
        obtain ⟨heq, hall⟩ := validateComponents_ok hrec
        simp at h
        subst h
        refine ⟨by simp [heq], ?_⟩
        intro d hd
        rcases List.mem_cons.mp hd with h | h
        · subst h; exact hc
        · exact hall d h
    · simp only [validateComponents, if_neg hc] at h
      exact absurd h (by simp)

theorem validateComponents_of_all {num_rows : Nat} :
    ∀ {cs : List Graph}, (∀ c ∈ cs, is_bi_clique c num_rows = true) →
      validateComponents num_rows cs =
        .ok (cs.map (fun c => biClusterOfNodes num_rows c.nodes))
  | [], _ => rfl
  | c :: rest, h => by
    have hc : is_bi_clique c num_rows = true := h c (List.mem_cons_self c rest)
    have hrest := validateComponents_of_all
      (fun d hd => h d (List.mem_cons_of_mem c hd))
    simp [validateComponents, hc, hrest]

theorem validateComponents_first_failure {num_rows : Nat} :
    ∀ {cs : List Graph}, (∃ c ∈ cs, is_bi_clique c num_rows = false) →
      ∃ c, c ∈ cs ∧ is_bi_clique c num_rows = false ∧
        validateComponents num_rows cs = .error (biCliqueErrorMsg c)
  | [], h => by simp at h
  | c :: rest, h => by
    by_cases hc : is_bi_clique c num_rows = true
    · have hrest : ∃ d ∈ rest, is_bi_clique d num_rows = false := by
        obtain ⟨d, hd, hdf⟩ := h
        rcases List.mem_cons.mp hd with heq | hmem
        · subst heq; rw [hc] at hdf; exact absurd hdf (by simp)
        · exact ⟨d, hmem, hdf⟩
      obtain ⟨d, hd, hdf, herr⟩ := validateComponents_first_failure hrest
      exact ⟨d, List.mem_cons_of_mem c hd, hdf, by
        simp [validateComponents, hc, herr]⟩
    · exact ⟨c, List.mem_cons_self c rest, by simpa using hc, by
        simp [validateComponents, hc]⟩

/-! ### Dispatch-loop lemmas -/

theorem solveSubgraphs_ok {alg : Algorithm} {ilp_run : IlpRun}
    {weights : Weights} {threshold : Int} {num_rows : Nat} :
    ∀ {sgs : List Graph} {bcs0 : List BiCluster} {obj0 : Int} {opt0 : Bool}
      {res : List BiCluster × Int × Bool},
      solveSubgraphs alg ilp_run weights threshold num_rows sgs bcs0 obj0 opt0 =
        .ok res →
      res.1 = bcs0 ++ sgs.flatMap (solvedBcs alg ilp_run weights threshold num_rows) ∧
      res.2.1 = obj0 + (sgs.map (solvedObj alg ilp_run weights threshold)).sum ∧
      res.2.2 = (opt0 && sgs.all (solvedOpt alg ilp_run weights threshold)) ∧
      ∀ sg ∈ sgs, ∃ g o b,
        alg.run ilp_run weights threshold sg = .ok (g, o, b) ∧
        ∀ c ∈ connected_components g, is_bi_clique c num_rows = true
  | [], bcs0, obj0, opt0, res, h => by
    simp [solveSubgraphs] at h
    simp [h.symm]
  | sg :: rest, bcs0, obj0, opt0, res, h => by
    cases hrun : alg.run ilp_run weights threshold sg with
    | error e =>
      rw [solveSubgraphs, hrun] at h
      exact absurd h (by simp)
    | ok out =>
      obtain ⟨g, o, b⟩ := out
      rw [solveSubgraphs, hrun] at h
      dsimp only at h
      cases hval : validateComponents num_rows (connected_components g) with
      | error e => rw [hval] at h; exact absurd h (by simp)
      | ok new_bcs =>
        rw [hval] at h
        obtain ⟨h1, h2, h3, h4⟩ := solveSubgraphs_ok h
        obtain ⟨hbcs, hall⟩ := validateComponents_ok hval
        have hsolved : solvedBcs alg ilp_run weights threshold num_rows sg =
            new_bcs := by
          simp [solvedBcs, hrun, hbcs]
        have hobj : solvedObj alg ilp_run weights threshold sg = o := by
          simp [solvedObj, hrun]
        have hopt : solvedOpt alg ilp_run weights threshold sg = b := by
          simp [solvedOpt, hrun]
        refine ⟨?_, ?_, ?_, ?_⟩
        · rw [h1, List.flatMap_cons, hsolved, List.append_assoc]
        · rw [h2, List.map_cons, List.sum_cons, hobj, Int.add_assoc]
        · rw [h3, List.all_cons, hopt, Bool.and_assoc]
        · intro s hs
          rcases List.mem_cons.mp hs with heq | hmem
          · exact heq ▸ ⟨g, o, b, hrun, hall⟩
          · exact h4 s hmem

/-! ### Instance-graph lemmas -/

theorem mem_build_graph_edges {weights : Weights} {threshold : Int}
    {node_range : List Nat} {p : Nat × Nat} :
    p ∈ (build_graph_from_weights weights threshold node_range).edges ↔
      ∃ i j, i < weights.num_rows ∧ j < weights.num_cols ∧
        threshold ≤ weights.entry i j ∧ p = (i, weights.num_rows + j) := by
  simp only [build_graph_from_weights, List.mem_flatMap, List.mem_filterMap,
    List.mem_range, Option.ite_none_right_eq_some, Option.some.injEq]
  constructor
  · rintro ⟨i, hi, j, hj, hle, heq⟩
    exact ⟨i, j, hi, hj, hle, heq.symm⟩
  · rintro ⟨i, j, hi, hj, hle, heq⟩
    exact ⟨i, hi, j, hj, hle, heq.symm⟩

theorem instanceGraph_nodes (weights : Weights) (threshold : Int) :
    (instanceGraph weights threshold).nodes =
      List.range (weights.num_rows + weights.num_cols) := rfl

theorem instanceGraph_nodes_nodup (weights : Weights) (threshold : Int) :
    (instanceGraph weights threshold).nodes.Nodup := by
  rw [instanceGraph_nodes]; exact List.nodup_range _

/-- C7 (claim): in the graph built by the orchestrator from the weight
matrix, an edge between row-node `i` and column-node `num_rows + j` exists
if and only if `weight[i][j] >= threshold`: present at or above the
threshold, absent strictly below it. -/
theorem C7_threshold_edge_iff (weights : Weights) (threshold : Int)
    (i j : Nat) (hi : i < weights.num_rows) (hj : j < weights.num_cols) :
    (instanceGraph weights threshold).adjacent i (weights.num_rows + j) = true ↔
      threshold ≤ weights.entry i j := by
  unfold instanceGraph
  have hforward : ((build_graph_from_weights weights threshold
        (List.range (weights.num_rows + weights.num_cols))).edges.contains
      (i, weights.num_rows + j) = true) ↔ threshold ≤ weights.entry i j := by
    rw [List.elem_iff, mem_build_graph_edges]
    constructor
    · rintro ⟨i', j', hi', hj', hle, heq⟩
      obtain ⟨h1, h2⟩ := Prod.mk.inj heq
      have hji : j = j' := by omega
      subst h1 hji
      exact hle
    · intro hle
      exact ⟨i, j, hi, hj, hle, rfl⟩
  have hbackward : (build_graph_from_weights weights threshold
        (List.range (weights.num_rows + weights.num_cols))).edges.contains
      (weights.num_rows + j, i) = false := by
    rw [Bool.eq_false_iff]
    intro hc
    obtain ⟨i', j', hi', hj', hle, heq⟩ :=
      mem_build_graph_edges.mp (List.elem_iff.mp hc)
    obtain ⟨h1, h2⟩ := Prod.mk.inj heq
    omega
  rw [Graph.adjacent, hbackward, Bool.or_false]
  exact hforward

/-- C7 witness: for a concrete 1×2 instance with threshold 0, the edge to
column 0 (weight 5) is present and characterized by the comparison. -/
theorem C7_threshold_edge_iff_witness :
    (0 : Nat) < (1 : Nat) ∧
    ((instanceGraph ⟨1, 2, fun _ j => if j = 0 then 5 else -5⟩ 0).adjacent 0
        (1 + 0) = true ↔
      (0 : Int) ≤ (if (0 : Nat) = 0 then 5 else -5)) :=
  ⟨by decide,
    C7_threshold_edge_iff ⟨1, 2, fun _ j => if j = 0 then 5 else -5⟩ 0 0 0
      (by decide) (by decide)⟩

/-! ### Aggregation claims -/

theorem compute_eq_solveSubgraphs (weights : Weights) (threshold : Int)
    (alg : Algorithm) (ilp_run : IlpRun) :
    compute_bi_clusters weights threshold alg ilp_run =
      solveSubgraphs alg ilp_run weights threshold weights.num_rows
        (nontrivialComponents weights threshold)
        (trivialBiClusters weights threshold) 0 true := rfl

/-- C2 (claim): whenever `compute_bi_clusters` returns, the global
optimality flag equals the logical AND of the optimality flags reported by
the dispatched non-trivial subproblems (`true` when there are none). -/
theorem C2_optimality_and_law (weights : Weights) (threshold : Int)
    (alg : Algorithm) (ilp_run : IlpRun) (bcs : List BiCluster) (obj : Int)
    (opt : Bool)
    (hok : compute_bi_clusters weights threshold alg ilp_run =
      .ok (bcs, obj, opt)) :
    opt = (nontrivialComponents weights threshold).all
      (solvedOpt alg ilp_run weights threshold) := by
  rw [compute_eq_solveSubgraphs] at hok
  have h := (solveSubgraphs_ok hok).2.2.1
  simpa using h

/-- C2 witness: the P-shaped instance with a stub solver reporting
non-optimal yields global flag `false`, the AND over the one subproblem. -/
theorem C2_optimality_and_law_witness :
    false = (nontrivialComponents exWeightsP 0).all
      (solvedOpt Algorithm.init exSolverComplete exWeightsP 0) :=
  C2_optimality_and_law exWeightsP 0 Algorithm.init exSolverComplete
    [([0, 1], [0, 1])] 3 false rfl

/-- C3 (claim): whenever `compute_bi_clusters` returns, the total
objective value is the sum of the objective values reported by the
dispatched non-trivial subproblems; trivial components contribute 0. -/
theorem C3_objective_additivity (weights : Weights) (threshold : Int)
    (alg : Algorithm) (ilp_run : IlpRun) (bcs : List BiCluster) (obj : Int)
    (opt : Bool)
    (hok : compute_bi_clusters weights threshold alg ilp_run =
      .ok (bcs, obj, opt)) :
    obj = ((nontrivialComponents weights threshold).map
      (solvedObj alg ilp_run weights threshold)).sum := by
  rw [compute_eq_solveSubgraphs] at hok
  have h := (solveSubgraphs_ok hok).2.1
  simpa using h

/-- C3 witness: the P-shaped instance with a stub solver reporting
objective 3 yields total objective 3, the sum over the one subproblem. -/
theorem C3_objective_additivity_witness :
    (3 : Int) = ((nontrivialComponents exWeightsP 0).map
      (solvedObj Algorithm.init exSolverComplete exWeightsP 0)).sum :=
  C3_objective_additivity exWeightsP 0 Algorithm.init exSolverComplete
    [([0, 1], [0, 1])] 3 false rfl

/-- C9 (claim): in the returned list, the bi-clusters emitted from trivial
components come first, in decomposition order, followed by the
solver-derived bi-clusters grouped by subproblem in dispatch order. -/
theorem C9_output_order (weights : Weights) (threshold : Int)
    (alg : Algorithm) (ilp_run : IlpRun) (bcs : List BiCluster) (obj : Int)
    (opt : Bool)
    (hok : compute_bi_clusters weights threshold alg ilp_run =
      .ok (bcs, obj, opt)) :
    bcs = trivialBiClusters weights threshold ++
      (nontrivialComponents weights threshold).flatMap
        (solvedBcs alg ilp_run weights threshold weights.num_rows) := by
  rw [compute_eq_solveSubgraphs] at hok
  exact (solveSubgraphs_ok hok).1

/-- C9 witness: for the P-shaped instance there are no trivial
bi-clusters and the returned list is exactly the one subproblem's group. -/
theorem C9_output_order_witness :
    [(([0, 1], [0, 1]) : BiCluster)] =
      trivialBiClusters exWeightsP 0 ++
        (nontrivialComponents exWeightsP 0).flatMap
          (solvedBcs Algorithm.init exSolverComplete exWeightsP 0
            exWeightsP.num_rows) :=
  C9_output_order exWeightsP 0 Algorithm.init exSolverComplete
    [([0, 1], [0, 1])] 3 false rfl

/-- C6 (claim): if every component of the instance graph is already a
bi-clique, `compute_bi_clusters` succeeds with objective value 0 and
optimality flag `true` for every configuration and every solver backend,
since no subproblem is dispatched. -/
theorem C6_all_trivial (weights : Weights) (threshold : Int)
    (h : ∀ c ∈ instanceComponents weights threshold,
      is_bi_clique c weights.num_rows = true)
    (alg : Algorithm) (ilp_run : IlpRun) :
    compute_bi_clusters weights threshold alg ilp_run =
      .ok (trivialBiClusters weights threshold, 0, true) := by
  have hempty : nontrivialComponents weights threshold = [] := by
    rw [nontrivialComponents, List.filter_eq_nil_iff]
    intro c hc
    simp [h c hc]
  rw [compute_eq_solveSubgraphs, hempty]
  rfl

/-- C6 witness: the all-trivial 2×2 instance succeeds with objective 0
and flag `true` even under an invalid algorithm name and a solver stub
that always raises. -/
theorem C6_all_trivial_witness :
    compute_bi_clusters exWeightsTrivial 0 ⟨"BOGUS", 0, true⟩ exSolverRaise =
      .ok (trivialBiClusters exWeightsTrivial 0, 0, true) :=
  C6_all_trivial exWeightsTrivial 0 (by decide) ⟨"BOGUS", 0, true⟩ exSolverRaise

/-! ### Fail-fast claims -/

theorem solveSubgraphs_prefix {alg : Algorithm} {ilp_run : IlpRun}
    {weights : Weights} {threshold : Int} {num_rows : Nat} :
    ∀ (pre : List Graph),
      (∀ s ∈ pre, ∃ g o b,
        alg.run ilp_run weights threshold s = .ok (g, o, b) ∧
        ∀ c ∈ connected_components g, is_bi_clique c num_rows = true) →
      ∀ (sgs2 : List Graph) (bcs : List BiCluster) (obj : Int) (opt : Bool),
        ∃ bcs' obj' opt',
          solveSubgraphs alg ilp_run weights threshold num_rows (pre ++ sgs2)
              bcs obj opt =
            solveSubgraphs alg ilp_run weights threshold num_rows sgs2
              bcs' obj' opt'
  | [], _, sgs2, bcs, obj, opt => ⟨bcs, obj, opt, rfl⟩
  | s :: pre, hpre, sgs2, bcs, obj, opt => by
    obtain ⟨g, o, b, hrun, hval⟩ := hpre s (List.mem_cons_self s pre)
    have hvc := validateComponents_of_all hval
    have hstep : solveSubgraphs alg ilp_run weights threshold num_rows
        ((s :: pre) ++ sgs2) bcs obj opt =
        solveSubgraphs alg ilp_run weights threshold num_rows (pre ++ sgs2)
          (bcs ++ (connected_components g).map
            (fun c => biClusterOfNodes num_rows c.nodes))
          (obj + o) (opt && b) := by
      rw [List.cons_append, solveSubgraphs, hrun]
      dsimp only
      rw [hvc]
    rw [hstep]
    exact solveSubgraphs_prefix pre
      (fun q hq => hpre q (List.mem_cons_of_mem s hq)) sgs2 _ _ _

/-- C4 (claim): if a dispatched solver call returns a subgraph one of
whose components fails the bi-clique check, `compute_bi_clusters` raises
the internal-consistency error, whose message is built from the offending
component's node and edge sets, and never returns a bi-cluster list.  The
hypotheses say the call on `sg` is actually made: the earlier dispatches
all succeed and validate. -/
theorem C4_contract_violation_detected (weights : Weights) (threshold : Int)
    (alg : Algorithm) (ilp_run : IlpRun) (pre post : List Graph) (sg g : Graph)
    (o : Int) (b : Bool)
    (hsplit : nontrivialComponents weights threshold = pre ++ sg :: post)
    (hpre : ∀ s ∈ pre, ∃ g o b,
      alg.run ilp_run weights threshold s = .ok (g, o, b) ∧
      ∀ c ∈ connected_components g, is_bi_clique c weights.num_rows = true)
    (hrun : alg.run ilp_run weights threshold sg = .ok (g, o, b))
    (hbad : ∃ c ∈ connected_components g,
      is_bi_clique c weights.num_rows = false) :
    ∃ c, c ∈ connected_components g ∧
      is_bi_clique c weights.num_rows = false ∧
      compute_bi_clusters weights threshold alg ilp_run =
        .error (biCliqueErrorMsg c) ∧
      ∀ r, compute_bi_clusters weights threshold alg ilp_run ≠ .ok r := by
  obtain ⟨c, hc, hcf, herr⟩ := validateComponents_first_failure hbad
  refine ⟨c, hc, hcf, ?_⟩
  have hcompute : compute_bi_clusters weights threshold alg ilp_run =
      .error (biCliqueErrorMsg c) := by
    rw [compute_eq_solveSubgraphs, hsplit]
    obtain ⟨bcs', obj', opt', heq⟩ := solveSubgraphs_prefix pre hpre
      (sg :: post) (trivialBiClusters weights threshold) 0 true
    rw [heq, solveSubgraphs, hrun]
    dsimp only
    rw [herr]
  exact ⟨hcompute, fun r hr => by rw [hcompute] at hr; exact absurd hr (by simp)⟩

/-- C4 witness: the P-shaped instance with the identity stub solver,
whose output component is not a bi-clique, makes the orchestrator abort
with the internal-consistency error. -/
theorem C4_contract_violation_detected_witness :
    ∃ c, c ∈ connected_components ⟨[0, 2, 3, 1], [(0, 2), (0, 3), (1, 2)]⟩ ∧
      is_bi_clique c exWeightsP.num_rows = false ∧
      compute_bi_clusters exWeightsP 0 Algorithm.init exSolverIdentity =
        .error (biCliqueErrorMsg c) ∧
      ∀ r, compute_bi_clusters exWeightsP 0 Algorithm.init exSolverIdentity ≠
        .ok r :=
  C4_contract_violation_detected exWeightsP 0 Algorithm.init exSolverIdentity
    [] [] ⟨[0, 2, 3, 1], [(0, 2), (0, 3), (1, 2)]⟩
    ⟨[0, 2, 3, 1], [(0, 2), (0, 3), (1, 2)]⟩ 0 true rfl (by simp) rfl
    (by decide)

/-- C8 (claim): if a dispatched solver call raises, the orchestrator
propagates that very exception as its own result.  The statement
quantifies over the remaining subproblems `post` and places no hypothesis
on the backend's behaviour there, so no later subproblem can influence the
outcome: dispatch is sequential in decomposition order and stops at the
failing call. -/
theorem C8_fail_fast (weights : Weights) (threshold : Int) (alg : Algorithm)
    (ilp_run : IlpRun) (pre post : List Graph) (sg : Graph) (e : String)
    (hsplit : nontrivialComponents weights threshold = pre ++ sg :: post)
    (hpre : ∀ s ∈ pre, ∃ g o b,
      alg.run ilp_run weights threshold s = .ok (g, o, b) ∧
      ∀ c ∈ connected_components g, is_bi_clique c weights.num_rows = true)
    (herr : alg.run ilp_run weights threshold sg = .error e) :
    compute_bi_clusters weights threshold alg ilp_run = .error e := by
  rw [compute_eq_solveSubgraphs, hsplit]
  obtain ⟨bcs', obj', opt', heq⟩ := solveSubgraphs_prefix pre hpre
    (sg :: post) (trivialBiClusters weights threshold) 0 true
  rw [heq, solveSubgraphs, herr]

/-- C8 witness: the P-shaped instance with a backend that raises makes
the orchestrator propagate the backend's exception unchanged. -/
theorem C8_fail_fast_witness :
    compute_bi_clusters exWeightsP 0 Algorithm.init exSolverRaise =
      .error "Gurobi failure" :=
  C8_fail_fast exWeightsP 0 Algorithm.init exSolverRaise [] []
    ⟨[0, 2, 3, 1], [(0, 2), (0, 3), (1, 2)]⟩ "Gurobi failure" rfl (by simp) rfl

/-! ### Strategy-selection claim -/

/-- C5 (claim): with algorithm name `"FP"`, `"EDGE-DEL"`, or any name
other than `"ILP"`, `Algorithm.run` raises without invoking any solver
backend (its result is an error and is independent of the backend), and
the error surfaces lazily: `compute_bi_clusters` fails iff at least one
non-trivial subproblem is dispatched, and still succeeds when there is
none. -/
theorem C5_unimplemented_strategy_raises (alg : Algorithm)
    (hname : alg.algorithm_name ≠ "ILP") :
    (∀ (f₁ f₂ : IlpRun) (w : Weights) (t : Int) (sg : Graph),
      alg.run f₁ w t sg = alg.run f₂ w t sg) ∧
    (∀ (f : IlpRun) (w : Weights) (t : Int) (sg : Graph),
      ∃ e, alg.run f w t sg = .error e) ∧
    (∀ (w : Weights) (t : Int) (f : IlpRun),
      nontrivialComponents w t ≠ [] →
      ∃ e, compute_bi_clusters w t alg f = .error e) ∧
    (∀ (w : Weights) (t : Int) (f : IlpRun),
      nontrivialComponents w t = [] →
      compute_bi_clusters w t alg f = .ok (trivialBiClusters w t, 0, true)) := by
  have hrun : ∀ (f : IlpRun) (w : Weights) (t : Int) (sg : Graph),
      ∃ e, alg.run f w t sg = .error e ∧
        ∀ (f' : IlpRun), alg.run f' w t sg = .error e := by
    intro f w t sg
    by_cases h2 : alg.algorithm_name = "FP"
    · exact ⟨"The algorithm FP has not been implemented yet.",
        by simp [Algorithm.run, hname, h2],
        fun f' => by simp [Algorithm.run, hname, h2]⟩
    · by_cases h3 : alg.algorithm_name = "EDGE-DEL"
      · exact ⟨"The algorithm EDGE-DEL has not been implemented yet.",
          by simp [Algorithm.run, hname, h2, h3],
          fun f' => by simp [Algorithm.run, hname, h2, h3]⟩
      · exact ⟨"Invalid algorithm name \"" ++ alg.algorithm_name ++
            "\". Must be either \"ILP\", \"FP\", or \"EDGE-DEL\".",
          by simp [Algorithm.run, hname, h2, h3],
          fun f' => by simp [Algorithm.run, hname, h2, h3]⟩
  refine ⟨?_, ?_, ?_, ?_⟩
  · intro f₁ f₂ w t sg
    obtain ⟨e, he, hall⟩ := hrun f₁ w t sg
    rw [he, hall f₂]
  · intro f w t sg
    obtain ⟨e, he, _⟩ := hrun f w t sg
    exact ⟨e, he⟩
  · intro w t f hne
    cases hnc : nontrivialComponents w t with
    | nil => exact absurd hnc hne
    | cons sg rest =>
      obtain ⟨e, he, _⟩ := hrun f w t sg
      refine ⟨e, ?_⟩
      rw [compute_eq_solveSubgraphs, hnc, solveSubgraphs, he]
  · intro w t f hnil
    rw [compute_eq_solveSubgraphs, hnil]
    rfl

/-- C5 witness: with name `"FP"`, the run result is backend-independent
and an error; dispatching the P-shaped instance fails, while the
all-trivial instance still succeeds. -/
theorem C5_unimplemented_strategy_raises_witness :
    (Algorithm.run ⟨"FP", 60, false⟩ exSolverIdentity exWeightsP 0
        ⟨[0], []⟩ =
      Algorithm.run ⟨"FP", 60, false⟩ exSolverRaise exWeightsP 0
        ⟨[0], []⟩) ∧
    (∃ e, Algorithm.run ⟨"FP", 60, false⟩ exSolverIdentity exWeightsP 0
      ⟨[0], []⟩ = .error e) ∧
    (∃ e, compute_bi_clusters exWeightsP 0 ⟨"FP", 60, false⟩
      exSolverIdentity = .error e) ∧
    (compute_bi_clusters exWeightsTrivial 0 ⟨"FP", 60, false⟩
      exSolverIdentity = .ok (trivialBiClusters exWeightsTrivial 0, 0, true)) := by
  have h := C5_unimplemented_strategy_raises ⟨"FP", 60, false⟩ (by decide)
  exact ⟨h.1 exSolverIdentity exSolverRaise exWeightsP 0 ⟨[0], []⟩,
    h.2.1 exSolverIdentity exWeightsP 0 ⟨[0], []⟩,
    h.2.2.1 exWeightsP 0 exSolverIdentity (by decide),
    h.2.2.2 exWeightsTrivial 0 exSolverIdentity (by decide)⟩

/-! ### Frame claim -/

theorem solveSubgraphsSt_fst {ilp_run : IlpRun} {threshold : Int}
    {num_rows : Nat} :
    ∀ (sgs : List Graph) (weights : Weights) (alg : Algorithm)
      (bcs : List BiCluster) (obj : Int) (opt : Bool),
      (solveSubgraphsSt ilp_run threshold num_rows weights alg sgs
        bcs obj opt).1 = (weights, alg)
  | [], _, _, _, _, _ => rfl
  | sg :: rest, weights, alg, bcs, obj, opt => by
    rw [solveSubgraphsSt]
    cases alg.run ilp_run weights threshold sg with
    | error e => rfl
    | ok out =>
      obtain ⟨g, o, b⟩ := out
      dsimp only
      cases validateComponents num_rows (connected_components g) with
      | error e => rfl
      | ok new_bcs => exact solveSubgraphsSt_fst rest weights alg _ _ _

theorem solveSubgraphsSt_snd {ilp_run : IlpRun} {threshold : Int}
    {num_rows : Nat} :
    ∀ (sgs : List Graph) (weights : Weights) (alg : Algorithm)
      (bcs : List BiCluster) (obj : Int) (opt : Bool),
      (solveSubgraphsSt ilp_run threshold num_rows weights alg sgs
        bcs obj opt).2 =
        solveSubgraphs alg ilp_run weights threshold num_rows sgs bcs obj opt
  | [], _, _, _, _, _ => rfl
  | sg :: rest, weights, alg, bcs, obj, opt => by
    rw [solveSubgraphsSt, solveSubgraphs]
    cases alg.run ilp_run weights threshold sg with
    | error e => rfl
    | ok out =>
      obtain ⟨g, o, b⟩ := out
      dsimp only
      cases validateComponents num_rows (connected_components g) with
      | error e => rfl
      | ok new_bcs => exact solveSubgraphsSt_snd rest weights alg _ _ _

/-- C10 (claim): `compute_bi_clusters` does not mutate the weight matrix
or the configuration object.  In the state-passing embedding, which
threads both through every loop iteration, they come back unchanged —
also on a run that aborts with an error — the threaded run computes the
same result as `compute_bi_clusters`, and a second invocation on the
returned state reproduces the first result. -/
theorem C10_no_mutation (weights : Weights) (threshold : Int)
    (alg : Algorithm) (ilp_run : IlpRun) :
    (compute_bi_clusters_st weights threshold alg ilp_run).1 =
      (weights, alg) ∧
    (compute_bi_clusters_st weights threshold alg ilp_run).2 =
      compute_bi_clusters weights threshold alg ilp_run ∧
    compute_bi_clusters_st
        (compute_bi_clusters_st weights threshold alg ilp_run).1.1 threshold
        (compute_bi_clusters_st weights threshold alg ilp_run).1.2 ilp_run =
      compute_bi_clusters_st weights threshold alg ilp_run := by
  have h1 : (compute_bi_clusters_st weights threshold alg ilp_run).1 =
      (weights, alg) := solveSubgraphsSt_fst _ _ _ _ _ _
  exact ⟨h1, solveSubgraphsSt_snd _ _ _ _ _ _, by rw [h1]⟩

/-! ### Partition claim -/

/-- A successful `Algorithm.run` can only have gone through the `"ILP"`
branch, so a node-set contract on the backend transfers to it. -/
theorem contract_of_run_ok {alg : Algorithm} {ilp_run : IlpRun}
    {weights : Weights} {threshold : Int} {sg g : Graph} {o : Int} {b : Bool}
    (hcontract : ∀ w t s tl tu g' o' b', ilp_run w t s tl tu = .ok (g', o', b') →
      s.nodes.Nodup → g'.nodes.Nodup ∧ ∀ x, x ∈ g'.nodes ↔ x ∈ s.nodes)
    (hsgnd : sg.nodes.Nodup)
    (hrun : alg.run ilp_run weights threshold sg = .ok (g, o, b)) :
    g.nodes.Nodup ∧ ∀ x, x ∈ g.nodes ↔ x ∈ sg.nodes := by
  by_cases h : alg.algorithm_name = "ILP"
  · rw [Algorithm.run, if_pos h] at hrun
    exact hcontract _ _ _ _ _ _ _ _ hrun hsgnd
  · rw [Algorithm.run, if_neg h] at hrun
    split_ifs at hrun

/-- Counting the emitted node lists: under the node-set contract, for any
projection `F` of a bi-cluster that counts occurrences of `u` exactly as
occurrences of `v` in the underlying node list, the total count of `u`
over the returned bi-clusters equals the count of `v` in the full node
range. -/
theorem emitted_count (weights : Weights) (threshold : Int) (alg : Algorithm)
    (ilp_run : IlpRun)
    (hcontract : ∀ w t s tl tu g' o' b', ilp_run w t s tl tu = .ok (g', o', b') →
      s.nodes.Nodup → g'.nodes.Nodup ∧ ∀ x, x ∈ g'.nodes ↔ x ∈ s.nodes)
    (hcalls : ∀ sg ∈ nontrivialComponents weights threshold, ∃ g o b,
      alg.run ilp_run weights threshold sg = .ok (g, o, b))
    (F : BiCluster → List Nat) (u v : Nat)
    (hF : ∀ ns : List Nat,
      (F (biClusterOfNodes weights.num_rows ns)).count u = ns.count v) :
    (((trivialBiClusters weights threshold ++
        (nontrivialComponents weights threshold).flatMap
          (solvedBcs alg ilp_run weights threshold weights.num_rows)).flatMap
      F).count u) =
      (List.range (weights.num_rows + weights.num_cols)).count v := by
  rw [List.flatMap_append, List.count_append]
  have hmk : ∀ (cs : List Graph),
      (((cs.map (fun c => biClusterOfNodes weights.num_rows c.nodes)).flatMap
        F).count u) = ((cs.flatMap Graph.nodes).count v) := by
    intro cs
    rw [count_flatMap, List.map_map, count_flatMap]
    congr 1
    exact List.map_congr_left (fun c _ => hF c.nodes)
  have htrivial : ((trivialBiClusters weights threshold).flatMap F).count u =
      (((instanceComponents weights threshold).filter
        (fun c => is_bi_clique c weights.num_rows)).flatMap Graph.nodes).count v := by
    rw [trivialBiClusters]
    exact hmk _
  have hsolved : (((nontrivialComponents weights threshold).flatMap
      (solvedBcs alg ilp_run weights threshold weights.num_rows)).flatMap
        F).count u =
      ((nontrivialComponents weights threshold).flatMap Graph.nodes).count v := by
    rw [List.flatMap_assoc, count_flatMap, count_flatMap]
    congr 1
    apply List.map_congr_left
    intro sg hsg
    obtain ⟨g, o, b, hrun⟩ := hcalls sg hsg
    have hsgnd : sg.nodes.Nodup := by
      have hmem : sg ∈ instanceComponents weights threshold :=
        List.mem_of_mem_filter hsg
      exact (nodup_sub_of_mem_connected_components hmem).1
    obtain ⟨hgnd, hgmem⟩ := contract_of_run_ok hcontract hsgnd hrun
    have h1 : (solvedBcs alg ilp_run weights threshold weights.num_rows sg) =
        (connected_components g).map
          (fun c => biClusterOfNodes weights.num_rows c.nodes) := by
      rw [solvedBcs, hrun]
    rw [h1, hmk, count_nodes_connected_components g hgnd]
    exact count_eq_of_nodup_of_mem_iff hgnd hsgnd hgmem v
  rw [htrivial, hsolved]
  have hperm : (((instanceComponents weights threshold).filter
        (fun c => is_bi_clique c weights.num_rows)).flatMap Graph.nodes ++
      ((instanceComponents weights threshold).filter
        (fun c => !is_bi_clique c weights.num_rows)).flatMap Graph.nodes).Perm
      ((instanceComponents weights threshold).flatMap Graph.nodes) := by
    rw [← List.flatMap_append]
    exact List.Perm.flatMap_right Graph.nodes
      (List.filter_append_perm (fun c => is_bi_clique c weights.num_rows) _)
  rw [nontrivialComponents, ← List.count_append, hperm.count_eq,
    instanceComponents,
    count_nodes_connected_components _ (instanceGraph_nodes_nodup weights threshold),
    instanceGraph_nodes]

/-- C1 (claim): for every instance on which `compute_bi_clusters` returns,
with a backend whose successful calls return a subgraph over the same node
set as their input (the §4.4 contract), the returned bi-clusters partition
the node set: every row id in `[0,R)` occurs exactly once across all row
lists, every column id in `[0,C)` occurs exactly once across all column
lists, and no bi-cluster contains any other ids. -/
theorem C1_partition_invariant (weights : Weights) (threshold : Int)
    (alg : Algorithm) (ilp_run : IlpRun)
    (hcontract : ∀ w t s tl tu g' o' b', ilp_run w t s tl tu = .ok (g', o', b') →
      s.nodes.Nodup → g'.nodes.Nodup ∧ ∀ x, x ∈ g'.nodes ↔ x ∈ s.nodes)
    (bcs : List BiCluster) (obj : Int) (opt : Bool)
    (hok : compute_bi_clusters weights threshold alg ilp_run =
      .ok (bcs, obj, opt)) :
    (∀ i, i < weights.num_rows → (bcs.flatMap Prod.fst).count i = 1) ∧
    (∀ j, j < weights.num_cols → (bcs.flatMap Prod.snd).count j = 1) ∧
    (∀ bc ∈ bcs, (∀ r ∈ bc.1, r < weights.num_rows) ∧
      (∀ c ∈ bc.2, c < weights.num_cols)) := by
  rw [compute_eq_solveSubgraphs] at hok
  obtain ⟨hbcs, -, -, hcalls⟩ := solveSubgraphs_ok hok
  have hcalls' : ∀ sg ∈ nontrivialComponents weights threshold, ∃ g o b,
      alg.run ilp_run weights threshold sg = .ok (g, o, b) := by
    intro sg hsg
    obtain ⟨g, o, b, hrun, -⟩ := hcalls sg hsg
    exact ⟨g, o, b, hrun⟩
  simp only at hbcs
  refine ⟨?_, ?_, ?_⟩
  · intro i hi
    rw [hbcs]
    rw [emitted_count weights threshold alg ilp_run hcontract hcalls'
      Prod.fst i i (fun ns => count_biClusterOfNodes_fst hi ns)]
    exact List.count_eq_one_of_mem (List.nodup_range _)
      (List.mem_range.mpr (by omega))
  · intro j hj
    rw [hbcs]
    rw [emitted_count weights threshold alg ilp_run hcontract hcalls'
      Prod.snd j (weights.num_rows + j)
      (fun ns => count_biClusterOfNodes_snd weights.num_rows j ns)]
    exact List.count_eq_one_of_mem (List.nodup_range _)
      (List.mem_range.mpr (by omega))
  · intro bc hbc
    rw [hbcs] at hbc
    have hns : ∃ ns : List Nat, (∀ x ∈ ns, x < weights.num_rows + weights.num_cols) ∧
        bc = biClusterOfNodes weights.num_rows ns := by
      rcases List.mem_append.mp hbc with h | h
      · rw [trivialBiClusters] at h
        obtain ⟨c, hc, heq⟩ := List.mem_map.mp h
        refine ⟨c.nodes, ?_, heq.symm⟩
        intro x hx
        have hmemc : c ∈ instanceComponents weights threshold :=
          List.mem_of_mem_filter hc
        have := (nodup_sub_of_mem_connected_components hmemc).2 x hx
        rw [instanceGraph_nodes] at this
        exact List.mem_range.mp this
      · obtain ⟨sg, hsg, hbc'⟩ := List.mem_flatMap.mp h
        obtain ⟨g, o, b, hrun⟩ := hcalls' sg hsg
        have hsgnd : sg.nodes.Nodup :=
          (nodup_sub_of_mem_connected_components
            (List.mem_of_mem_filter hsg)).1
        obtain ⟨hgnd, hgmem⟩ := contract_of_run_ok hcontract hsgnd hrun
        rw [solvedBcs, hrun] at hbc'
        obtain ⟨c, hc, heq⟩ := List.mem_map.mp hbc'
        refine ⟨c.nodes, ?_, heq.symm⟩
        intro x hx
        have hxg : x ∈ g.nodes := (nodup_sub_of_mem_connected_components hc).2 x hx
        have hxsg : x ∈ sg.nodes := (hgmem x).mp hxg
        have hmemsg : sg ∈ instanceComponents weights threshold :=
          List.mem_of_mem_filter hsg
        have := (nodup_sub_of_mem_connected_components hmemsg).2 x hxsg
        rw [instanceGraph_nodes] at this
        exact List.mem_range.mp this
    obtain ⟨ns, hnsb, heq⟩ := hns
    subst heq
    constructor
    · intro r hr
      exact (mem_biClusterOfNodes_fst hr).1
    · intro c hc
      obtain ⟨n, hn, hge, hceq⟩ := mem_biClusterOfNodes_snd hc
      have := hnsb n hn
      omega

/-- C1 witness: the P-shaped instance with the completing (contract
conforming) stub solver: row ids 0 and 1 and column ids 0 and 1 each
occur exactly once across the returned bi-clusters, and all ids are in
range. -/
theorem C1_partition_invariant_witness :
    (∀ i, i < exWeightsP.num_rows →
      (([(([0, 1], [0, 1]) : BiCluster)].flatMap Prod.fst).count i = 1)) ∧
    (∀ j, j < exWeightsP.num_cols →
      (([(([0, 1], [0, 1]) : BiCluster)].flatMap Prod.snd).count j = 1)) ∧
    (∀ bc ∈ [(([0, 1], [0, 1]) : BiCluster)],
      (∀ r ∈ bc.1, r < exWeightsP.num_rows) ∧
      (∀ c ∈ bc.2, c < exWeightsP.num_cols)) :=
  C1_partition_invariant exWeightsP 0 Algorithm.init exSolverComplete
    (fun w t s tl tu g' o' b' h hnd => by
      simp only [exSolverComplete, Except.ok.injEq, Prod.mk.injEq] at h
      obtain ⟨hg, -⟩ := h
      subst hg
      exact ⟨hnd, fun x => Iff.rfl⟩)
    [([0, 1], [0, 1])] 3 false rfl

end Biclustpy
